import Mathlib

/-!
Shallow embedding of the tic-tac-toe program (`a4.py`): the `Game` rule
engine and the `MonteCarlo` learning agent.  Python mutation is modelled by
explicit state passing; Python `dict`s (which preserve insertion order) are
modelled by association lists; Python floats are modelled by `ℚ` (every
quantity here is a sum of dyadic-style rationals and the claims are order
and equality facts that are independent of rounding); `random.choices` is
abstracted as an oracle choosing an index into the candidate list.
-/

namespace TTT

/-- A mark: Python uses the strings `'x'` and `'o'`; the program only ever
constructs games with these two values. -/
inductive Mark where
  | x : Mark
  | o : Mark
deriving DecidableEq, Repr

/-- A board cell: Python uses `''` for empty and the mark character
otherwise. -/
abbrev Cell := Option Mark

/-- `all_win_conds` from the source: the 8 winning triples, exactly in the
source's order (note the last one is written `[6, 4, 2]` there). -/
def all_win_conds : List (List Nat) :=
  [[0, 1, 2],
   [3, 4, 5],
   [6, 7, 8],
   [0, 3, 6],
   [1, 4, 7],
   [2, 5, 8],
   [0, 4, 8],
   [6, 4, 2]]

/-- `win_cond_map` from the source: for each index, the winning triples that
pass through it (`filter(lambda cond: i in cond, all_win_conds)`). -/
def win_cond_map (i : Nat) : List (List Nat) :=
  all_win_conds.filter (fun cond => cond.contains i)

/-- A `Game` instance: board list plus the mark whose turn it is.
Python default is a list of 9 empty cells and turn `'x'`. -/
structure Game where
  board : List Cell
  turn : Mark
deriving DecidableEq, Repr

/-- The empty game `Game()`. -/
def Game.init : Game :=
  { board := List.replicate 9 none, turn := Mark.x }

/-- Reading `self.__board[index]`; boards in the program always have
length 9, so the default is never consulted on reachable inputs. -/
def Game.cellAt (g : Game) (i : Nat) : Cell :=
  g.board.getD i none

/-- The serialization of one cell used by `state()`:
`x or '_'`. -/
def cellChar : Cell → Char
  | none => '_'
  | some Mark.x => 'x'
  | some Mark.o => 'o'

/-- `Game.state`: `''.join(map(lambda x: x or '_', self.__board))`. -/
def Game.state (g : Game) : String :=
  String.mk (g.board.map cellChar)

/-- `Game.current_turn`. -/
def Game.current_turn (g : Game) : Mark :=
  g.turn

/-- `Game.__cell`: `self.__board[index] or str(1 + index)` — the mark's
character as a string when occupied, else the 1-based cell number. -/
def Game.cell (g : Game) (index : Nat) : String :=
  match g.cellAt index with
  | some Mark.x => "x"
  | some Mark.o => "o"
  | none => toString (1 + index)

/-- `Game.valid_moves`:
`map(lambda i: self.__cell(i), filter(lambda i: not self.__board[i], range(9)))`. -/
def Game.valid_moves (g : Game) : List String :=
  ((List.range 9).filter (fun i => (g.cellAt i).isNone)).map (fun i => g.cell i)

/-- `Game.clone`: `Game(self.__board.copy(), self.__turn)`. -/
def Game.clone (g : Game) : Game :=
  { board := g.board, turn := g.turn }

/-- `Game.__check_win`:
`any(map(lambda cond: all(map(lambda i: self.__board[i] == player, cond)), conds))`. -/
def check_win (board : List Cell) (conds : List (List Nat)) (player : Mark) : Bool :=
  conds.any (fun cond => cond.all (fun i => board.getD i none = some player))

/-- `Game.__check_index_win`: `self.__check_win(win_cond_map[index], player)`. -/
def check_index_win (board : List Cell) (index : Nat) (player : Mark) : Bool :=
  check_win board (win_cond_map index) player

/-- `Game.is_no_more_moves`: `all(self.__board)` (Python truthiness:
`''` is falsy, a mark character is truthy). -/
def Game.is_no_more_moves (g : Game) : Bool :=
  g.board.all (fun c => c ≠ none)

/-- `'x' if self.__turn == 'o' else 'o'`. -/
def flipTurn : Mark → Mark
  | Mark.o => Mark.x
  | Mark.x => Mark.o

/-- Failures of `Game.move`: `raise Exception('bad move')`, and the
`ValueError` that `int(cell)` raises on a non-numeric string. -/
inductive MoveErr where
  | invalidMove : MoveErr
  | valueError : MoveErr
deriving DecidableEq, Repr

/-- `Game.move` on an already-converted integer cell id:
```
index = int(cell) - 1
if not (0 <= index <= 8) or self.__board[index]:
    raise Exception('bad move')
self.__board[index] = self.__turn
try:
    return self.__check_index_win(index, self.__turn)
finally:
    self.__turn = 'x' if self.__turn == 'o' else 'o'
```
Returns the updated game together with the win flag the source returns. -/
def Game.move (g : Game) (cell : Int) : Except MoveErr (Game × Bool) :=
  let index : Int := cell - 1
  if ¬(0 ≤ index ∧ index ≤ 8) ∨ g.cellAt index.toNat ≠ none then
    Except.error MoveErr.invalidMove
  else
    let board' := g.board.set index.toNat (some g.turn)
    let won := check_index_win board' index.toNat g.turn
    Except.ok ({ board := board', turn := flipTurn g.turn }, won)

/-- The numeric value of a decimal digit character. -/
def digitVal? (c : Char) : Option Nat :=
  if c.isDigit then some (c.toNat - Char.toNat '0') else none

/-- Base-10 accumulation over a character list. -/
def digitsVal (cs : List Char) : Option Nat :=
  cs.foldl
    (fun acc c =>
      match acc, digitVal? c with
      | some n, some d => some (n * 10 + d)
      | _, _ => none)
    (some 0)

/-- Python's `int(cell)` on the strings this program passes: an optional
minus sign followed by decimal digits; anything else raises `ValueError`
(modelled as `none`). -/
def strToInt? (s : String) : Option Int :=
  match s.data with
  | [] => none
  | '-' :: cs => if cs = [] then none else (digitsVal cs).map (fun n => -(n : Int))
  | cs => (digitsVal cs).map (fun n => (n : Int))

/-- `Game.move` on a string cell id: `int(cell)` first (`ValueError` on a
non-numeric string is a distinct failure from `'bad move'`). -/
def Game.moveStr (g : Game) (cell : String) : Except MoveErr (Game × Bool) :=
  match strToInt? cell with
  | none => Except.error MoveErr.valueError
  | some n => g.move n

/-- A move's statistics record: `(accumulated score, play count)`. -/
abbrev Record := Rat × Nat

/-- The per-state table `self.__memory[state]`: a Python dict from move
string to record, modelled as an association list in insertion order. -/
abbrev StateRecords := List (String × Record)

/-- `MonteCarlo.__memory`: dict from state string to per-state table,
modelled as an association list in insertion order. -/
abbrev Memory := List (String × StateRecords)

/-- Dict lookup `self.__memory[state]` (as an `Option`; Python raises
`KeyError` on a missing key). -/
def memLookup (m : Memory) (s : String) : Option StateRecords :=
  (m.find? (fun p => p.1 = s)).map (fun p => p.2)

/-- Dict lookup `records[move]` inside one state's table. -/
def recLookup (recs : StateRecords) (mv : String) : Option Record :=
  (recs.find? (fun p => p.1 = mv)).map (fun p => p.2)

/-- Lookup of a single record: `self.__memory[state][move]`. -/
def memRecord (m : Memory) (s mv : String) : Option Record :=
  (memLookup m s).bind (fun recs => recLookup recs mv)

/-- `winrate`:
```
if not record[1]:
    return 0.5
return record[0] / record[1]
``` -/
def winrate (record : Record) : Rat :=
  if record.2 = 0 then 1/2 else record.1 / (record.2 : Rat)

/-- Errors of `MonteCarlo.next_move`: the `KeyError` (a `LookupError`) of
`self.__memory[state]`, and the `TypeError` `reduce` raises on an empty
iterable with no initial value. -/
inductive AgentErr where
  | lookupError : AgentErr
  | typeError : AgentErr
deriving DecidableEq, Repr

/-- The reducer of `MonteCarlo.next_move`:
`lambda a, b: a if winrate(records[a]) > winrate(records[b]) else b`,
running over (key, record) pairs since each dict key carries its value. -/
def nmStep (a b : String × Record) : String × Record :=
  if winrate a.2 > winrate b.2 then a else b

/-- `MonteCarlo.next_move`:
```
records = self.__memory[state]
return reduce(
    lambda a, b: a if winrate(records[a]) > winrate(records[b]) else b,
    records.keys(),
)
```
The dict's keys are iterated in insertion order and each key's record is its
associated value, so `reduce` (which seeds the fold with the first element
and raises `TypeError` when the iterable is empty) folds `nmStep` over the
(key, record) pairs. -/
def next_move (m : Memory) (state : String) : Except AgentErr String :=
  match memLookup m state with
  | none => Except.error AgentErr.lookupError
  | some records =>
    match records with
    | [] => Except.error AgentErr.typeError
    | r :: rs => Except.ok ((rs.foldl nmStep r).1)

/-- `MonteCarlo.__pick_move`:
`random.choices(list(records.keys()), list(map(winrate, records.values())))[0]`.
The random draw is abstracted by the oracle value `c`: the drawn element is
some element of the key list, modelled as the key at index `c % len`. -/
def pick_move (records : StateRecords) (c : Nat) : String :=
  (records.getD (c % records.length) ("", ((0 : Rat), 0))).1

/-- The memory-initialization step of `MonteCarlo.__simulate`:
```
if current_state not in self.__memory:
    self.__memory[current_state] = {
        move: (0, 0) for move in game.valid_moves()
    }
```
(dict insertion appends the new key in iteration order). -/
def initState (m : Memory) (g : Game) : Memory :=
  if (memLookup m (g.state)).isSome then m
  else m ++ [(g.state, (g.valid_moves).map (fun mv => (mv, ((0 : Rat), 0))))]

/-- One player's move log entry: a (state, move) pair. -/
abbrev MoveLog := List (String × String)

/-- The game-playing loop of `MonteCarlo.__simulate`, with the random draws
supplied by `oracle` (indexed by the remaining fuel so successive iterations
see independent values) and termination enforced by `fuel` (9 suffices for
a length-9 board).  Returns the memory, the two move logs and `i_won`
(`none` for the tie exit, `some is_me` for the win break); `none` models a
raised exception or fuel exhaustion, neither of which occurs on reachable
inputs. -/
def simLoop (oracle : Nat → Nat) (me : Mark) :
    Nat → Memory → Game → MoveLog → MoveLog →
    Option (Memory × MoveLog × MoveLog × Option Bool)
  | 0, _, _, _, _ => none
  | Nat.succ fuel, m, g, myMoves, theirMoves =>
    if g.is_no_more_moves then some (m, myMoves, theirMoves, none)
    else
      let m' := initState m g
      match memLookup m' (g.state) with
      | none => none
      | some records =>
        if records.length = 0 then none
        else
          let mv := pick_move records (oracle (Nat.succ fuel))
          let is_me := g.current_turn = me
          let myMoves' := if is_me then myMoves ++ [(g.state, mv)] else myMoves
          let theirMoves' := if is_me then theirMoves else theirMoves ++ [(g.state, mv)]
          match g.moveStr mv with
          | Except.error _ => none
          | Except.ok (g', won) =>
            if won then some (m', myMoves', theirMoves', some is_me)
            else simLoop oracle me fuel m' g' myMoves' theirMoves'

/-- The outcome-classification step of `MonteCarlo.__simulate`:
tie → `(0, 0)`, `i_won` → `(1, -1)`, lost → `(-1, 1)`. -/
def scoresOf : Option Bool → Rat × Rat
  | none => (0, 0)
  | some true => (1, -1)
  | some false => (-1, 1)

/-- One assignment
`self.__memory[state][move] = (self.__memory[state][move][0] + .5 + (scores * 0.5 / (i + 1)), self.__memory[state][move][1] + 1)`:
the record stored under key `mv` of the table stored under key `st` is
replaced, every other key keeping its value. -/
def updateRecord (m : Memory) (st mv : String) (s : Rat) (i : Nat) : Memory :=
  m.map (fun p =>
    (p.1,
     if p.1 = st then
       p.2.map (fun q =>
         (q.1,
          if q.1 = mv then (q.2.1 + 1/2 + s * (1/2) / ((i : Rat) + 1), q.2.2 + 1)
          else q.2))
     else p.2))

/-- The body of one credit-assignment loop of `MonteCarlo.__simulate`,
already running over the reversed move list with `i` counting up from 0:
`for i, (state, move) in zip(range(len(moves)), reversed(moves))`. -/
def creditGo (s : Rat) : Nat → Memory → MoveLog → Memory
  | _, m, [] => m
  | i, m, (st, mv) :: rest => creditGo s (i + 1) (updateRecord m st mv s i) rest

/-- One credit-assignment pass over a move log (most recent move first). -/
def creditPass (m : Memory) (moves : MoveLog) (s : Rat) : Memory :=
  creditGo s 0 m moves.reverse

/-- `MonteCarlo.__simulate`: play one randomized game from `game`, then run
the two credit-assignment passes with the outcome scores. -/
def simulate (oracle : Nat → Nat) (fuel : Nat) (m : Memory) (game : Game) :
    Option Memory :=
  (simLoop oracle (game.current_turn) fuel m game [] []).map
    (fun r =>
      let scores := scoresOf r.2.2.2
      creditPass (creditPass r.1 r.2.1 scores.1) r.2.2.1 scores.2)

/-!
A heap model for the aliasing content of `Game.clone`: Python games hold a
reference to their board list, `clone` allocates a fresh copy
(`self.__board.copy()`), and `move` mutates the board in place.  The store
is the list of allocated boards; a game value is a board reference plus the
turn mark (a per-object value, copied by value on clone).
-/

/-- The heap of allocated board lists. -/
abbrev Store := List (List Cell)

/-- A Python `Game` object: a reference into the store plus its own turn. -/
structure GameRef where
  ref : Nat
  turn : Mark
deriving DecidableEq, Repr

/-- The board list a game object refers to. -/
def boardOf (σ : Store) (g : GameRef) : List Cell :=
  σ.getD g.ref []

/-- `state()` read through the store. -/
def stateR (σ : Store) (g : GameRef) : String :=
  String.mk ((boardOf σ g).map cellChar)

/-- `Game.clone` in the heap model: `Game(self.__board.copy(), self.__turn)`
copies the board into a fresh allocation and copies the turn by value. -/
def cloneR (σ : Store) (g : GameRef) : Store × GameRef :=
  (σ ++ [boardOf σ g], { ref := σ.length, turn := g.turn })

/-- `Game.move` in the heap model: the in-place `self.__board[index] = ...`
writes through the game's board reference; the turn is a per-object field. -/
def moveR (σ : Store) (g : GameRef) (cell : Int) :
    Except MoveErr (Store × GameRef × Bool) :=
  match Game.move { board := boardOf σ g, turn := g.turn } cell with
  | Except.error e => Except.error e
  | Except.ok (g', won) =>
    Except.ok (σ.set g.ref g'.board, { ref := g.ref, turn := g'.turn }, won)

/-- Apply a sequence of moves to a game object, stopping at the first
failure (a raised exception). -/
def movesR (σ : Store) (g : GameRef) : List Int → Store × GameRef
  | [] => (σ, g)
  | c :: cs =>
    match moveR σ g c with
    | Except.error _ => (σ, g)
    | Except.ok (σ', g', _) => movesR σ' g' cs

/-- All records of the memory satisfy `0 ≤ score ≤ count`. -/
def memInv (m : Memory) : Prop :=
  ∀ p ∈ m, ∀ q ∈ p.2, 0 ≤ q.2.1 ∧ q.2.1 ≤ (q.2.2 : Rat)

/-- Every state table in the memory records at least one move. -/
def memEntriesNonempty (m : Memory) : Prop :=
  ∀ p ∈ m, p.2 ≠ []

/-!  Concrete scenarios used to instantiate the theorems. -/

/-- A game where `x`, about to move, already has two in a row on top. -/
def gRow : Game :=
  { board := [some Mark.x, some Mark.x, none, some Mark.o, some Mark.o, none,
              none, none, none],
    turn := Mark.x }

/-- A game where `x` is to move and `o` (two in a row on top, to move
second) can win immediately afterwards. -/
def gLoss : Game :=
  { board := [some Mark.o, some Mark.o, none, some Mark.x, none, none,
              some Mark.x, none, none],
    turn := Mark.x }

/-- An oracle driving the simulation from `gLoss`: `x` picks cell 5
(candidate index 1 of `["3","5","6","8","9"]`), then `o` picks cell 3
(candidate index 0 of `["3","6","8","9"]`) and wins. -/
def lossOracle : Nat → Nat := fun n => if n = 9 then 1 else 0

/-- A two-move memory whose records tie at win rate `1/2`. -/
def tieMemory : Memory :=
  [("s", [("1", ((1 : Rat), 2)), ("2", ((1 : Rat), 2))])]

/-- The memory the game loop of the `gLoss`/`lossOracle` simulation builds
before credit assignment: both visited states with all-zero records. -/
def lossMemF : Memory :=
  [("oo_x__x__",
    [("3", ((0 : Rat), 0)), ("5", ((0 : Rat), 0)), ("6", ((0 : Rat), 0)),
     ("8", ((0 : Rat), 0)), ("9", ((0 : Rat), 0))]),
   ("oo_xx_x__",
    [("3", ((0 : Rat), 0)), ("6", ((0 : Rat), 0)), ("8", ((0 : Rat), 0)),
     ("9", ((0 : Rat), 0))])]

/-- The simulating mark's move log in the `gLoss`/`lossOracle` game. -/
def lossMy : MoveLog := [("oo_x__x__", "5")]

/-- The opponent's move log in the `gLoss`/`lossOracle` game. -/
def lossTheir : MoveLog := [("oo_xx_x__", "3")]

/-!  Theorems. -/

/-- C3: `move(cellId)` fails with the InvalidMove error iff the 1-based
cell id is outside `[1, 9]` or the targeted cell is occupied; on success it
places the current mark at board index `cellId − 1` and flips the turn, so
the current turn after a successful move differs from its value before. -/
theorem move_invalid_iff_and_flips_turn (g : Game) (cell : Int) :
    (g.move cell = Except.error MoveErr.invalidMove ↔
      (cell < 1 ∨ 9 < cell ∨ g.cellAt (cell - 1).toNat ≠ none)) ∧
    (∀ g' won, g.move cell = Except.ok (g', won) →
      g'.board = g.board.set (cell - 1).toNat (some g.turn) ∧
      g'.current_turn = flipTurn g.turn ∧
      g'.current_turn ≠ g.current_turn) := by
  have h1 : (¬(0 ≤ cell - 1 ∧ cell - 1 ≤ 8) ∨ g.cellAt (cell - 1).toNat ≠ none) ↔
      (cell < 1 ∨ 9 < cell ∨ g.cellAt (cell - 1).toNat ≠ none) := by
    constructor
    · rintro (h | h)
      · rcases (by omega : cell < 1 ∨ 9 < cell) with h' | h'
        · exact Or.inl h'
        · exact Or.inr (Or.inl h')
      · exact Or.inr (Or.inr h)
    · rintro (h | h | h)
      · exact Or.inl (by omega)
      · exact Or.inl (by omega)
      · exact Or.inr h
  simp only [Game.move]
  split_ifs with h
  · refine ⟨⟨fun _ => h1.mp h, fun _ => rfl⟩, ?_⟩
    intro g' won hok
    exact absurd hok (by simp)
  · refine ⟨⟨fun he => absurd he (by simp), fun hc => absurd (h1.mpr hc) h⟩, ?_⟩
    intro g' won hok
    have hg : g' = ({ board := g.board.set (cell - 1).toNat (some g.turn),
                      turn := flipTurn g.turn } : Game) :=
      (congrArg Prod.fst (Except.ok.inj hok)).symm
    have hflip : ∀ t : Mark, flipTurn t ≠ t := by
      intro t
      cases t <;> simp [flipTurn]
    subst hg
    exact ⟨rfl, rfl, by simpa [Game.current_turn] using hflip g.turn⟩

/-- Witness for C3: cell 10 is rejected on the empty board, and the
successful move 5 places `x` at index 4 and hands the turn to `o`. -/
theorem move_invalid_iff_and_flips_turn_witness :
    Game.init.move 10 = Except.error MoveErr.invalidMove ∧
    ({ board := [none, none, none, none, some Mark.x, none, none, none, none],
       turn := Mark.o } : Game).current_turn ≠ Game.init.current_turn := by
  constructor
  · exact (move_invalid_iff_and_flips_turn Game.init 10).1.mpr (by decide)
  · exact ((move_invalid_iff_and_flips_turn Game.init 5).2
      { board := [none, none, none, none, some Mark.x, none, none, none, none],
        turn := Mark.o } false rfl).2.2

/-- Counterexample to C5: `move` does return a value indicating whether the
move won — on `gRow` the winning move 3 returns `true` while a non-winning
move on the empty board returns `false`, so the caller learns the win
status from `move`'s result. -/
theorem move_win_flag_counterexample :
    gRow.move 3 =
      Except.ok
        ({ board := [some Mark.x, some Mark.x, some Mark.x, some Mark.o,
                     some Mark.o, none, none, none, none],
           turn := Mark.o }, true) ∧
    Game.init.move 5 =
      Except.ok
        ({ board := [none, none, none, none, some Mark.x, none, none, none,
                     none],
           turn := Mark.o }, false) := by
  constructor <;> rfl

/-- C5 amended: `move` does have a return value indicating the win: every
successful `move(cellId)` returns the boolean produced by checking, on the
updated board, the winning triples through the placed cell for the mark
that just moved. -/
theorem move_returns_win_flag (g : Game) (cell : Int) (g' : Game) (won : Bool) :
    g.move cell = Except.ok (g', won) →
    won = check_index_win g'.board (cell - 1).toNat g.turn := by
  intro hok
  simp only [Game.move] at hok
  split_ifs at hok
  have hg : g' = ({ board := g.board.set (cell - 1).toNat (some g.turn),
                    turn := flipTurn g.turn } : Game) :=
    (congrArg Prod.fst (Except.ok.inj hok)).symm
  have hw : won = check_index_win (g.board.set (cell - 1).toNat (some g.turn))
      (cell - 1).toNat g.turn :=
    (congrArg Prod.snd (Except.ok.inj hok)).symm
  subst hg
  exact hw

/-- Witness for C5 amended: the winning move 3 on `gRow` returns exactly
the index-local win check of the updated board. -/
theorem move_returns_win_flag_witness :
    (true : Bool) =
      check_index_win [some Mark.x, some Mark.x, some Mark.x, some Mark.o,
                       some Mark.o, none, none, none, none] 2 Mark.x :=
  move_returns_win_flag gRow 3
    { board := [some Mark.x, some Mark.x, some Mark.x, some Mark.o,
                some Mark.o, none, none, none, none],
      turn := Mark.o } true rfl
/-- Moves through one game object only write that object's board cell of
the store and never change the object's reference. -/
theorem movesR_frame (cs : List Int) :
    ∀ (σ : Store) (g : GameRef) (j : Nat), g.ref ≠ j →
      (movesR σ g cs).1.getD j [] = σ.getD j [] ∧
      (movesR σ g cs).2.ref = g.ref := by
  induction cs with
  | nil =>
    intro σ g j hne
    exact ⟨rfl, rfl⟩
  | cons c cs ih =>
    intro σ g j hne
    simp only [movesR]
    cases h2 : Game.move { board := boardOf σ g, turn := g.turn } c with
    | error e =>
      simp only [moveR, h2]
      refine ⟨?_, ?_⟩ <;> trivial
    | ok r =>
      obtain ⟨g1, won⟩ := r
      simp only [moveR, h2]
      have h3 := ih (σ.set g.ref g1.board) { ref := g.ref, turn := g1.turn } j hne
      refine ⟨?_, h3.2⟩
      rw [h3.1, List.getD_eq_getElem?_getD, List.getD_eq_getElem?_getD,
        List.getElem?_set_ne hne]

/-- C7: `clone()` returns a game whose state and turn equal the original's,
and any sequence of moves applied to the clone leaves the original's state
(and its turn, a per-object value the clone never touches) unchanged: no
shared mutable state. -/
theorem clone_independent (σ : Store) (g : GameRef) (cs : List Int)
    (h : g.ref < σ.length) :
    stateR (cloneR σ g).1 (cloneR σ g).2 = stateR σ g ∧
    (cloneR σ g).2.turn = g.turn ∧
    stateR (cloneR σ g).1 g = stateR σ g ∧
    stateR (movesR (cloneR σ g).1 (cloneR σ g).2 cs).1 g = stateR σ g := by
  have hboard : (σ ++ [σ.getD g.ref []]).getD g.ref [] = σ.getD g.ref [] :=
    List.getD_append _ _ _ _ h
  have hclone : (σ ++ [σ.getD g.ref []]).getD σ.length [] = σ.getD g.ref [] := by
    rw [List.getD_append_right _ _ _ _ (Nat.le_refl _), Nat.sub_self]
    rfl
  have hne : (σ.length : Nat) ≠ g.ref := by omega
  have h4 := movesR_frame cs (σ ++ [σ.getD g.ref []])
    { ref := σ.length, turn := g.turn } g.ref hne
  refine ⟨?_, rfl, ?_, ?_⟩
  · simp only [cloneR, stateR, boardOf]
    rw [hclone]
  · simp only [cloneR, stateR, boardOf]
    rw [hboard]
  · simp only [cloneR, stateR, boardOf]
    rw [h4.1, hboard]

/-- Anatomy of a successful `move`: the index is in range, the target cell
was empty, the mark is placed there, the turn flips, and the returned flag
is the index-local win check on the updated board. -/
theorem move_ok_destruct (g : Game) (cell : Int) (g' : Game) (won : Bool)
    (hok : g.move cell = Except.ok (g', won)) :
    (0 ≤ cell - 1 ∧ cell - 1 ≤ 8) ∧ g.cellAt (cell - 1).toNat = none ∧
    g' = ({ board := g.board.set (cell - 1).toNat (some g.turn),
            turn := flipTurn g.turn } : Game) ∧
    won = check_index_win (g.board.set (cell - 1).toNat (some g.turn))
      (cell - 1).toNat g.turn := by
  simp only [Game.move] at hok
  split_ifs at hok with h
  push_neg at h
  exact ⟨h.1, h.2, (congrArg Prod.fst (Except.ok.inj hok)).symm,
    (congrArg Prod.snd (Except.ok.inj hok)).symm⟩

/-- When the player has no winning triple yet, checking only the triples
through the cell just placed agrees with checking all 8 triples on the
updated board. -/
theorem check_win_local_global (b : List Cell) (idx : Nat) (p : Mark)
    (hpre : check_win b all_win_conds p = false) :
    check_index_win (b.set idx (some p)) idx p
      = check_win (b.set idx (some p)) all_win_conds p := by
  cases hfull : check_win (b.set idx (some p)) all_win_conds p with
  | true =>
    rw [check_win, List.any_eq_true] at hfull
    obtain ⟨cond, hmem, hall⟩ := hfull
    by_cases hidx : idx ∈ cond
    · rw [check_index_win, check_win, List.any_eq_true]
      refine ⟨cond, ?_, hall⟩
      rw [win_cond_map, List.mem_filter]
      exact ⟨hmem, by simpa using hidx⟩
    · exfalso
      have hfill : ∀ i ∈ cond, b.getD i none = some p := by
        intro i hi
        have hne : idx ≠ i := fun hcontra => hidx (hcontra ▸ hi)
        have h2 := List.all_eq_true.mp hall i hi
        rw [decide_eq_true_eq, List.getD_eq_getElem?_getD,
          List.getElem?_set_ne hne, ← List.getD_eq_getElem?_getD] at h2
        exact h2
      have hwin : check_win b all_win_conds p = true := by
        rw [check_win, List.any_eq_true]
        exact ⟨cond, hmem, List.all_eq_true.mpr
          (fun i hi => decide_eq_true (hfill i hi))⟩
      rw [hwin] at hpre
      cases hpre
  | false =>
    cases hloc : check_index_win (b.set idx (some p)) idx p with
    | false => rfl
    | true =>
      exfalso
      rw [check_index_win, check_win, List.any_eq_true] at hloc
      obtain ⟨cond, hmem, hall⟩ := hloc
      rw [win_cond_map, List.mem_filter] at hmem
      have hwin : check_win (b.set idx (some p)) all_win_conds p = true := by
        rw [check_win, List.any_eq_true]
        exact ⟨cond, hmem.1, hall⟩
      rw [hfull] at hwin
      cases hwin

/-- C9: starting from a board where the moving mark has no complete winning
triple, the boolean a successful `move` returns — computed from
`win_cond_map`, the triples through the placed cell only — equals the full
win check over all 8 winning triples for the mark just placed. -/
theorem move_flag_eq_full_win_check (g : Game) (cell : Int) (g' : Game)
    (won : Bool) (hpre : check_win g.board all_win_conds g.turn = false)
    (hok : g.move cell = Except.ok (g', won)) :
    won = check_win g'.board all_win_conds g.turn := by
  obtain ⟨_, _, hg, hw⟩ := move_ok_destruct g cell g' won hok
  subst hg
  rw [hw]
  exact check_win_local_global g.board (cell - 1).toNat g.turn hpre

/-- Witness for C9: on `gRow` (no triple complete) the winning move 3
returns `true`, which equals the full 8-triple win check afterwards. -/
theorem move_flag_eq_full_win_check_witness :
    (true : Bool) =
      check_win [some Mark.x, some Mark.x, some Mark.x, some Mark.o,
                 some Mark.o, none, none, none, none] all_win_conds Mark.x :=
  move_flag_eq_full_win_check gRow 3
    { board := [some Mark.x, some Mark.x, some Mark.x, some Mark.o,
                some Mark.o, none, none, none, none],
      turn := Mark.o } true (by decide) rfl

/-- Counting the empty positions of a board through `List.range` agrees
with counting its `none` cells. -/
theorem filter_range_isNone_length (b : List Cell) :
    ((List.range b.length).filter (fun i => (b.getD i none).isNone)).length
      = b.countP (fun c => c.isNone) := by
  induction b with
  | nil => rfl
  | cons c b ih =>
    rw [List.length_cons, List.range_succ_eq_map, List.filter_cons,
      List.filter_map]
    have he : ((fun i => ((c :: b).getD i none).isNone) ∘ Nat.succ)
        = fun i => (b.getD i none).isNone := by
      funext i
      simp [List.getD_eq_getElem?_getD]
    rw [he, List.countP_cons]
    cases c <;> simp [← List.getD_eq_getElem?_getD, ih]

/-- A board's `none` count and `some` count add up to its length. -/
theorem countP_isNone_add_isSome (b : List Cell) :
    b.countP (fun c => c.isNone) + b.countP (fun c => c.isSome) = b.length := by
  induction b with
  | nil => rfl
  | cons c b ih =>
    cases c <;> simp [List.countP_cons, ih] <;> omega

/-- C8: `validMoves()` yields exactly one identifier per empty cell — the
1-indexed cell number as a string — in ascending cell-index order, and the
number of identifiers plus the number of occupied cells is 9. -/
theorem valid_moves_spec (g : Game) (h9 : g.board.length = 9) :
    g.valid_moves =
      ((List.range 9).filter (fun i => (g.cellAt i).isNone)).map
        (fun i => toString (1 + i)) ∧
    (∀ i, i ∈ (List.range 9).filter (fun i => (g.cellAt i).isNone) ↔
      i < 9 ∧ g.cellAt i = none) ∧
    ((List.range 9).filter (fun i => (g.cellAt i).isNone)).Pairwise (· < ·) ∧
    g.valid_moves.length + g.board.countP (fun c => c.isSome) = 9 := by
  have hmap : g.valid_moves =
      ((List.range 9).filter (fun i => (g.cellAt i).isNone)).map
        (fun i => toString (1 + i)) := by
    unfold Game.valid_moves
    apply List.map_congr_left
    intro i hi
    have hempty : g.cellAt i = none := by
      have := (List.mem_filter.mp hi).2
      simpa [Option.isNone_iff_eq_none] using this
    unfold Game.cell
    rw [hempty]
  refine ⟨hmap, ?_, ?_, ?_⟩
  · intro i
    simp [List.mem_filter, List.mem_range, Option.isNone_iff_eq_none]
  · exact (List.pairwise_lt_range 9).filter _
  · rw [hmap, List.length_map]
    have hrange : (List.range 9) = List.range g.board.length := by rw [h9]
    rw [hrange]
    unfold Game.cellAt
    rw [filter_range_isNone_length g.board, ← h9]
    exact countP_isNone_add_isSome g.board

/-- Witness for C8: on `gRow` (four occupied cells) the five legal moves
plus the four occupied cells account for all nine cells. -/
theorem valid_moves_spec_witness :
    gRow.valid_moves.length + gRow.board.countP (fun c => c.isSome) = 9 :=
  (valid_moves_spec gRow (by decide)).2.2.2

/-- Witness for C7: after cloning a fresh one-object store and moving on
the clone, the original still serializes to the empty board. -/
theorem clone_independent_witness :
    stateR (movesR (cloneR [List.replicate 9 (none : Cell)]
          { ref := 0, turn := Mark.x }).1
        (cloneR [List.replicate 9 (none : Cell)]
          { ref := 0, turn := Mark.x }).2 [5]).1
      { ref := 0, turn := Mark.x } =
    stateR [List.replicate 9 (none : Cell)] { ref := 0, turn := Mark.x } :=
  (clone_independent [List.replicate 9 (none : Cell)]
    { ref := 0, turn := Mark.x } [5] (by decide)).2.2.2
/-- Looking a key up in an association list mapped by a key-preserving
function applies the function to the looked-up value. -/
theorem lookup_map_keyfix {α : Type} (f : String → α → α)
    (l : List (String × α)) (k : String) :
    ((l.map (fun p => (p.1, f p.1 p.2))).find? (fun p => p.1 = k)).map
        (fun p => p.2)
      = ((l.find? (fun p => p.1 = k)).map (fun p => p.2)).map (f k) := by
  induction l with
  | nil => rfl
  | cons a l ih =>
    by_cases h : a.1 = k
    · subst h
      simp [List.find?_cons_of_pos]
    · rw [List.map_cons, List.find?_cons_of_neg _ (by simpa using h),
        List.find?_cons_of_neg _ (by simpa using h)]
      exact ih

/-- What one stored-record assignment does to an arbitrary lookup: the
targeted (state, move) record is replaced by the update formula, every
other record is untouched. -/
theorem memRecord_updateRecord (m : Memory) (st mv : String) (s : Rat)
    (i : Nat) (k j : String) :
    memRecord (updateRecord m st mv s i) k j =
      (memRecord m k j).map (fun r =>
        if k = st ∧ j = mv then
          (r.1 + 1/2 + s * (1/2) / ((i : Rat) + 1), r.2 + 1)
        else r) := by
  have houter := lookup_map_keyfix
    (fun key recs => if key = st then
        recs.map (fun q =>
          (q.1, if q.1 = mv then
              (q.2.1 + 1/2 + s * (1/2) / ((i : Rat) + 1), q.2.2 + 1)
            else q.2))
      else recs) m k
  unfold memRecord memLookup updateRecord
  rw [houter]
  cases hlk : (m.find? (fun p => p.1 = k)).map (fun p => p.2) with
  | none => rfl
  | some recs =>
    simp only [Option.map_some', Option.some_bind]
    by_cases hks : k = st
    · rw [if_pos hks]
      have hinner := lookup_map_keyfix
        (fun key v => if key = mv then
            (v.1 + 1/2 + s * (1/2) / ((i : Rat) + 1), v.2 + 1)
          else v) recs j
      unfold recLookup
      rw [hinner]
      cases hrl : (recs.find? (fun p => p.1 = j)).map (fun p => p.2) with
      | none => rfl
      | some r =>
        simp only [Option.map_some']
        by_cases hjm : j = mv
        · simp [hks, hjm]
        · simp [hks, hjm]
    · rw [if_neg hks]
      unfold recLookup
      cases hrl : (recs.find? (fun p => p.1 = j)).map (fun p => p.2) with
      | none => rfl
      | some r => simp [hks]

/-- An assignment to a different (state, move) pair leaves a record
unchanged. -/
theorem memRecord_update_other (m : Memory) (st mv : String) (s : Rat)
    (i : Nat) (k j : String) (h : ¬(k = st ∧ j = mv)) :
    memRecord (updateRecord m st mv s i) k j = memRecord m k j := by
  rw [memRecord_updateRecord]
  cases hr : memRecord m k j with
  | none => rfl
  | some r => simp [h]

/-- The assignment to the targeted (state, move) pair applies the update
formula. -/
theorem memRecord_update_self (m : Memory) (st mv : String) (s : Rat)
    (i : Nat) (r : Record) (h : memRecord m st mv = some r) :
    memRecord (updateRecord m st mv s i) st mv =
      some (r.1 + 1/2 + s * (1/2) / ((i : Rat) + 1), r.2 + 1) := by
  rw [memRecord_updateRecord, h]
  simp

/-- A credit loop over moves not containing a pair leaves its record
unchanged. -/
theorem creditGo_not_mem (s : Rat) (st mv : String) :
    ∀ (moves : MoveLog) (i : Nat) (m : Memory), (st, mv) ∉ moves →
      memRecord (creditGo s i m moves) st mv = memRecord m st mv := by
  intro moves
  induction moves with
  | nil =>
    intro i m _
    rfl
  | cons a rest ih =>
    intro i m hnm
    obtain ⟨st', mv'⟩ := a
    rw [creditGo, ih (i + 1) _ (fun h => hnm (List.mem_cons_of_mem _ h)),
      memRecord_update_other]
    intro hc
    exact hnm (by rw [hc.1, hc.2]; exact List.mem_cons_self _ _)

/-- A credit loop over moves containing a pair exactly once updates its
record with the formula at the pair's position in the loop. -/
theorem creditGo_mem_once (s : Rat) (st mv : String) (r : Record) :
    ∀ (l₁ l₂ : MoveLog) (i : Nat) (m : Memory), (st, mv) ∉ l₁ →
      (st, mv) ∉ l₂ → memRecord m st mv = some r →
      memRecord (creditGo s i m (l₁ ++ (st, mv) :: l₂)) st mv =
        some (r.1 + 1/2 + s * (1/2) / (((i + l₁.length : Nat) : Rat) + 1),
          r.2 + 1) := by
  intro l₁
  induction l₁ with
  | nil =>
    intro l₂ i m _ hn2 hr
    rw [List.nil_append, creditGo, creditGo_not_mem s st mv l₂ _ _ hn2,
      memRecord_update_self m st mv s i r hr]
    simp
  | cons a l₁ ih =>
    intro l₂ i m hn1 hn2 hr
    obtain ⟨st', mv'⟩ := a
    have hne : ¬(st = st' ∧ mv = mv') := by
      intro hc
      exact hn1 (by rw [hc.1, hc.2]; exact List.mem_cons_self _ _)
    rw [List.cons_append, creditGo,
      ih l₂ (i + 1) _ (fun h => hn1 (List.mem_cons_of_mem _ h)) hn2
        (by rw [memRecord_update_other _ _ _ _ _ _ _ hne]; exact hr)]
    have hcast : (((i + 1 + l₁.length : Nat) : Rat)) =
        (((i + (l₁.length + 1) : Nat) : Rat)) := by
      push_cast
      ring
    rw [hcast]
    rfl

/-- The credit-assignment pass updates the record of a pair occurring
exactly once in the move log by the formula at its 1-based recency index
(1 for the last move, counting backwards). -/
theorem creditPass_mem_once (m : Memory) (moves : MoveLog) (s : Rat)
    (pre post : MoveLog) (st mv : String) (r : Record)
    (hsplit : moves = pre ++ (st, mv) :: post) (hpre : (st, mv) ∉ pre)
    (hpost : (st, mv) ∉ post) (hr : memRecord m st mv = some r) :
    memRecord (creditPass m moves s) st mv =
      some (r.1 + 1/2 + s * (1/2) / ((post.length : Rat) + 1), r.2 + 1) := by
  unfold creditPass
  rw [hsplit, List.reverse_append, List.reverse_cons, List.append_assoc,
    List.singleton_append]
  have h := creditGo_mem_once s st mv r post.reverse pre.reverse 0 m
    (fun hx => hpost (List.mem_reverse.mp hx))
    (fun hx => hpre (List.mem_reverse.mp hx)) hr
  rw [h]
  simp [List.length_reverse]

/-- The credit-assignment pass leaves records of pairs outside the move
log unchanged. -/
theorem creditPass_not_mem (m : Memory) (moves : MoveLog) (s : Rat)
    (st mv : String) (h : (st, mv) ∉ moves) :
    memRecord (creditPass m moves s) st mv = memRecord m st mv :=
  creditGo_not_mem s st mv moves.reverse 0 m
    (fun hx => h (List.mem_reverse.mp hx))
/-- Bounds on the per-move score increment `0.5 + s * 0.5 / (i + 1)`:
for an outcome score `s ∈ [-1, 1]` it lies in `[0, 1]`, and it is at least
`0.5` when `s ≥ 0`. -/
theorem credit_delta_bounds (s : Rat) (n : Nat) (hs1 : -1 ≤ s) (hs2 : s ≤ 1) :
    0 ≤ 1/2 + s * (1/2) / ((n : Rat) + 1) ∧
    1/2 + s * (1/2) / ((n : Rat) + 1) ≤ 1 ∧
    (0 ≤ s → 1/2 ≤ 1/2 + s * (1/2) / ((n : Rat) + 1)) := by
  have hq1 : (1 : Rat) ≤ (n : Rat) + 1 := by
    have := Nat.cast_nonneg (α := Rat) n
    linarith
  have hq0 : (0 : Rat) < (n : Rat) + 1 := by linarith
  have habs : |s * (1/2) / ((n : Rat) + 1)| ≤ 1/2 := by
    rw [abs_div, abs_mul, abs_of_pos hq0]
    have h1 : |s| ≤ 1 := abs_le.mpr ⟨hs1, hs2⟩
    have h2 : |(1 : Rat)/2| = 1/2 := by norm_num
    rw [h2]
    calc |s| * (1/2) / ((n : Rat) + 1)
        ≤ 1 * (1/2) / ((n : Rat) + 1) := by gcongr
      _ = (1/2) / ((n : Rat) + 1) := by norm_num
      _ ≤ 1/2 := div_le_self (by norm_num) hq1
  obtain ⟨hlo, hhi⟩ := abs_le.mp habs
  refine ⟨by linarith, by linarith, fun hs0 => ?_⟩
  have hnn : 0 ≤ s * (1/2) / ((n : Rat) + 1) :=
    div_nonneg (mul_nonneg hs0 (by norm_num)) (le_of_lt hq0)
  linarith

/-- C1: after each simulated game the memory is updated by the two
credit-assignment passes over the move lists, each iterated in reverse
chronological order with a 1-based recency index `i` starting at 1 for the
last move: a visited (state, move) record gains `0.5 + outcomeScore*0.5/i`
score and 1 count, where the outcome scores are `(0,0)` on a tie,
`(1,-1)` when the simulating mark won and `(-1,1)` when it lost. -/
theorem mcts_credit_assignment :
    (∀ (m : Memory) (moves : MoveLog) (s : Rat) (pre post : MoveLog)
        (st mv : String) (r : Record),
      moves = pre ++ (st, mv) :: post → (st, mv) ∉ pre → (st, mv) ∉ post →
      memRecord m st mv = some r →
      memRecord (creditPass m moves s) st mv =
        some (r.1 + 1/2 + s * (1/2) / ((post.length : Rat) + 1), r.2 + 1)) ∧
    (∀ (m : Memory) (moves : MoveLog) (s : Rat) (st mv : String),
      (st, mv) ∉ moves →
      memRecord (creditPass m moves s) st mv = memRecord m st mv) ∧
    scoresOf none = ((0 : Rat), (0 : Rat)) ∧
    scoresOf (some true) = ((1 : Rat), (-1 : Rat)) ∧
    scoresOf (some false) = ((-1 : Rat), (1 : Rat)) ∧
    (∀ oracle fuel m g, simulate oracle fuel m g =
      (simLoop oracle g.current_turn fuel m g [] []).map (fun r =>
        creditPass (creditPass r.1 r.2.1 (scoresOf r.2.2.2).1) r.2.2.1
          (scoresOf r.2.2.2).2)) :=
  ⟨creditPass_mem_once, creditPass_not_mem, rfl, rfl, rfl,
    fun _ _ _ _ => rfl⟩

/-- Witness for C1: a one-move log with outcome score 1 takes the single
record from (0, 0) to (0 + 0.5 + 1·0.5/1, 1). -/
theorem mcts_credit_assignment_witness :
    memRecord (creditPass [("s", [("1", ((0 : Rat), 0))])] [("s", "1")] 1)
        "s" "1" =
      some ((0 : Rat) + 1/2 + 1 * (1/2) / ((([] : MoveLog).length : Rat) + 1),
        0 + 1) :=
  mcts_credit_assignment.1 [("s", [("1", ((0 : Rat), 0))])] [("s", "1")] 1
    [] [] "s" "1" ((0 : Rat), 0) rfl (by simp) (by simp) rfl

/-- Counterexample to C4: in the simulation from `gLoss` driven by
`lossOracle`, the simulating mark `x` loses, and its last (and only) move
record for state `"oo_x__x__"`, move `"5"`, goes from (0, 0) to (0, 1):
the count grew by 1 but the score grew by 0, which is less than the 0.5
the claim promises for every visited pair. -/
theorem credit_half_counterexample :
    simulate lossOracle 9 [] gLoss =
      some (creditPass (creditPass lossMemF lossMy (-1)) lossTheir 1) ∧
    memRecord (creditPass (creditPass lossMemF lossMy (-1)) lossTheir 1)
      "oo_x__x__" "5" = some ((0 : Rat), 1) ∧
    ¬ ((1 : Rat)/2 ≤ (0 : Rat) - 0) := by
  refine ⟨?_, ?_, by norm_num⟩
  · rfl
  · have h1 : memRecord lossMemF "oo_x__x__" "5" = some ((0 : Rat), 0) := rfl
    have h2 := creditPass_mem_once lossMemF lossMy (-1) [] [] "oo_x__x__" "5"
      ((0 : Rat), 0) rfl (by simp) (by simp) h1
    have h3 := creditPass_not_mem (creditPass lossMemF lossMy (-1)) lossTheir
      1 "oo_x__x__" "5" (by decide)
    rw [h3, h2]
    norm_num

/-- C4 amended: every (state, move) pair visited in a simulated game gains
exactly +1 count, and its score gains a nonnegative amount: at least +0.5
when the mover's outcome score is ≥ 0 (tie or win), and `0.5 − 0.5/i ≥ 0`
at recency index `i` when the mover lost (exactly 0 for the loser's last
move). -/
theorem credit_update_bounded (m : Memory) (moves : MoveLog) (s : Rat)
    (pre post : MoveLog) (st mv : String) (r : Record)
    (hs1 : -1 ≤ s) (hs2 : s ≤ 1)
    (hsplit : moves = pre ++ (st, mv) :: post) (hpre : (st, mv) ∉ pre)
    (hpost : (st, mv) ∉ post) (hr : memRecord m st mv = some r) :
    ∃ sc, memRecord (creditPass m moves s) st mv = some (sc, r.2 + 1) ∧
      r.1 ≤ sc ∧ (0 ≤ s → r.1 + 1/2 ≤ sc) := by
  obtain ⟨h0, _, hhalf⟩ := credit_delta_bounds s post.length hs1 hs2
  refine ⟨r.1 + 1/2 + s * (1/2) / ((post.length : Rat) + 1),
    creditPass_mem_once m moves s pre post st mv r hsplit hpre hpost hr,
    by linarith, fun hs0 => by have := hhalf hs0; linarith⟩

/-- Witness for C4 amended: with outcome score −1 the single move's record
goes from (0, 0) to (0, 1) — count +1, score increase 0 (nonnegative). -/
theorem credit_update_bounded_witness :
    ∃ sc, memRecord (creditPass [("s", [("1", ((0 : Rat), 0))])]
        [("s", "1")] (-1)) "s" "1" = some (sc, 0 + 1) ∧
      (0 : Rat) ≤ sc ∧ (0 ≤ (-1 : Rat) → (0 : Rat) + 1/2 ≤ sc) :=
  credit_update_bounded [("s", [("1", ((0 : Rat), 0))])] [("s", "1")] (-1)
    [] [] "s" "1" ((0 : Rat), 0) (by norm_num) (by norm_num) rfl (by simp)
    (by simp) rfl
/-- Appending a fresh state entry makes it visible to lookup. -/
theorem memLookup_append_self (m : Memory) (s : String) (e : StateRecords)
    (h : memLookup m s = none) :
    memLookup (m ++ [(s, e)]) s = some e := by
  unfold memLookup at h ⊢
  have hf : m.find? (fun p => p.1 = s) = none := by
    cases hc : m.find? (fun p => p.1 = s) with
    | none => rfl
    | some p => rw [hc] at h; simp at h
  rw [List.find?_append, hf, Option.none_or, List.find?_cons_of_pos _ (by simp)]
  rfl

/-- A lookup hit in a memory whose entries are all nonempty is nonempty. -/
theorem memLookup_entry_nonempty (m : Memory) (s : String)
    (recs : StateRecords) (hNE : memEntriesNonempty m)
    (h : memLookup m s = some recs) : recs ≠ [] := by
  unfold memLookup at h
  cases hf : m.find? (fun p => p.1 = s) with
  | none => rw [hf] at h; simp at h
  | some p =>
    rw [hf, Option.map_some'] at h
    exact (Option.some.inj h) ▸ hNE p (List.mem_of_find?_eq_some hf)

/-- Generic preservation through the simulation game loop: any memory
predicate preserved by the (guarded) initialization step holds for the
memory the loop returns. -/
theorem simLoop_preserves (oracle : Nat → Nat) (me : Mark) (P : Memory → Prop)
    (hinit : ∀ m g records, P m →
      memLookup (initState m g) (g.state) = some records → records ≠ [] →
      P (initState m g)) :
    ∀ (fuel : Nat) (m : Memory) (g : Game) (my their : MoveLog) res,
      P m → simLoop oracle me fuel m g my their = some res → P res.1 := by
  intro fuel
  induction fuel with
  | zero =>
    intro m g my their res _ h
    exact absurd h (by simp [simLoop])
  | succ fuel ih =>
    intro m g my their res hP h
    simp only [simLoop] at h
    by_cases hfull : g.is_no_more_moves
    · rw [if_pos hfull] at h
      obtain rfl : res = (m, my, their, none) := (Option.some.inj h).symm
      exact hP
    · rw [if_neg hfull] at h
      split at h
      · exact absurd h (by simp)
      · rename_i records heq
        split at h
        · exact absurd h (by simp)
        · rename_i hlen
          have hrecs : records ≠ [] :=
            fun hc => hlen (by rw [hc]; rfl)
          have hP' : P (initState m g) := hinit m g records hP heq hrecs
          split at h
          · exact absurd h (by simp)
          · split at h
            · have hres : res.1 = initState m g := by
                rw [← Option.some.inj h]
              rw [hres]
              exact hP'
            · exact ih _ _ _ _ _ hP' h
/-- Initializing a state's table (all records `(0, 0)`) keeps every stored
record within `0 ≤ score ≤ count`. -/
theorem memInv_initState (m : Memory) (g : Game) (h : memInv m) :
    memInv (initState m g) := by
  unfold initState
  split_ifs with hs
  · exact h
  · intro p hp
    rcases List.mem_append.mp hp with hin | hin
    · exact h p hin
    · have hp2 : p = (g.state,
          (g.valid_moves).map (fun mv => (mv, ((0 : Rat), 0)))) := by
        simpa using hin
      subst hp2
      intro q hq
      simp only [List.mem_map] at hq
      obtain ⟨mv, _, rfl⟩ := hq
      constructor <;> norm_num

/-- One record assignment with an outcome score in `[-1, 1]` keeps every
stored record within `0 ≤ score ≤ count`. -/
theorem memInv_updateRecord (m : Memory) (st mv : String) (s : Rat) (i : Nat)
    (hs1 : -1 ≤ s) (hs2 : s ≤ 1) (h : memInv m) :
    memInv (updateRecord m st mv s i) := by
  intro p hp
  unfold updateRecord at hp
  simp only [List.mem_map] at hp
  obtain ⟨p0, hp0, rfl⟩ := hp
  intro q hq
  simp only at hq
  by_cases hps : p0.1 = st
  · rw [if_pos hps] at hq
    simp only [List.mem_map] at hq
    obtain ⟨q0, hq0, rfl⟩ := hq
    obtain ⟨hb0, hb1⟩ := h p0 hp0 q0 hq0
    obtain ⟨hd0, hd1, _⟩ := credit_delta_bounds s i hs1 hs2
    by_cases hqm : q0.1 = mv
    · rw [if_pos hqm]
      constructor
      · simp only
        linarith
      · simp only
        push_cast
        linarith
    · rw [if_neg hqm]
      exact ⟨hb0, hb1⟩
  · rw [if_neg hps] at hq
    exact h p0 hp0 q hq

/-- The credit loop with an outcome score in `[-1, 1]` keeps every stored
record within `0 ≤ score ≤ count`. -/
theorem memInv_creditGo (s : Rat) (hs1 : -1 ≤ s) (hs2 : s ≤ 1) :
    ∀ (moves : MoveLog) (i : Nat) (m : Memory), memInv m →
      memInv (creditGo s i m moves) := by
  intro moves
  induction moves with
  | nil =>
    intro i m h
    exact h
  | cons a rest ih =>
    intro i m h
    obtain ⟨st, mv⟩ := a
    exact ih (i + 1) _ (memInv_updateRecord m st mv s i hs1 hs2 h)

/-- The credit pass with an outcome score in `[-1, 1]` keeps every stored
record within `0 ≤ score ≤ count`. -/
theorem memInv_creditPass (m : Memory) (moves : MoveLog) (s : Rat)
    (hs1 : -1 ≤ s) (hs2 : s ≤ 1) (h : memInv m) :
    memInv (creditPass m moves s) :=
  memInv_creditGo s hs1 hs2 moves.reverse 0 m h

/-- Both components of every outcome-score pair lie in `[-1, 1]`. -/
theorem scoresOf_bounds (iw : Option Bool) :
    -1 ≤ (scoresOf iw).1 ∧ (scoresOf iw).1 ≤ 1 ∧
    -1 ≤ (scoresOf iw).2 ∧ (scoresOf iw).2 ≤ 1 := by
  rcases iw with _ | b
  · norm_num [scoresOf]
  · cases b <;> norm_num [scoresOf]

/-- A whole simulation keeps every stored record within
`0 ≤ score ≤ count`. -/
theorem memInv_simulate (oracle : Nat → Nat) (fuel : Nat) (m : Memory)
    (g : Game) (m' : Memory) (h : memInv m)
    (hs : simulate oracle fuel m g = some m') : memInv m' := by
  unfold simulate at hs
  rw [Option.map_eq_some'] at hs
  obtain ⟨res, hres, rfl⟩ := hs
  have h1 := simLoop_preserves oracle g.current_turn memInv
    (fun m g records hP _ _ => memInv_initState m g hP) fuel m g [] [] res
    h hres
  obtain ⟨b1, b2, b3, b4⟩ := scoresOf_bounds res.2.2.2
  exact memInv_creditPass _ _ _ b3 b4
    (memInv_creditPass _ _ _ b1 b2 h1)

/-- Bounds-respecting records have win rates in `[0, 1]`. -/
theorem winrate_mem_unit (r : Record) (h0 : 0 ≤ r.1)
    (h1 : r.1 ≤ (r.2 : Rat)) : 0 ≤ winrate r ∧ winrate r ≤ 1 := by
  unfold winrate
  split_ifs with hz
  · norm_num
  · have hpos : (0 : Rat) < (r.2 : Rat) := by
      exact_mod_cast Nat.pos_of_ne_zero hz
    exact ⟨div_nonneg h0 (le_of_lt hpos), (div_le_one hpos).mpr h1⟩
/-- C10: records start at (0, 0), and every memory write — initialization
or credit update with outcome scores in `[-1, 1]` — keeps
`0 ≤ score ≤ count`, so every win rate, including the 0.5 default for
count 0, lies in `[0, 1]` and the weighted move selection only ever sees
nonnegative weights. -/
theorem mcts_records_bounded :
    memInv ([] : Memory) ∧
    (∀ oracle fuel m g m', memInv m → simulate oracle fuel m g = some m' →
      memInv m') ∧
    (∀ r : Record, 0 ≤ r.1 → r.1 ≤ (r.2 : Rat) →
      0 ≤ winrate r ∧ winrate r ≤ 1) ∧
    (∀ sc : Rat, winrate (sc, 0) = 1/2) :=
  ⟨fun p hp => absurd hp (List.not_mem_nil p),
   fun oracle fuel m g m' h hs => memInv_simulate oracle fuel m g m' h hs,
   winrate_mem_unit,
   fun _ => rfl⟩

/-- Witness for C10: the memory produced by the concrete `gLoss`
simulation satisfies the score/count invariant. -/
theorem mcts_records_bounded_witness :
    memInv (creditPass (creditPass lossMemF lossMy (-1)) lossTheir 1) :=
  mcts_records_bounded.2.1 lossOracle 9 [] gLoss
    (creditPass (creditPass lossMemF lossMy (-1)) lossTheir 1)
    mcts_records_bounded.1 rfl

/-- A record assignment keeps every state table nonempty. -/
theorem memEntriesNonempty_updateRecord (m : Memory) (st mv : String)
    (s : Rat) (i : Nat) (h : memEntriesNonempty m) :
    memEntriesNonempty (updateRecord m st mv s i) := by
  intro p hp
  unfold updateRecord at hp
  simp only [List.mem_map] at hp
  obtain ⟨p0, hp0, rfl⟩ := hp
  simp only
  by_cases hps : p0.1 = st
  · rw [if_pos hps]
    simp only [ne_eq, List.map_eq_nil_iff]
    exact h p0 hp0
  · rw [if_neg hps]
    exact h p0 hp0

/-- The credit loop keeps every state table nonempty. -/
theorem memEntriesNonempty_creditGo (s : Rat) :
    ∀ (moves : MoveLog) (i : Nat) (m : Memory), memEntriesNonempty m →
      memEntriesNonempty (creditGo s i m moves) := by
  intro moves
  induction moves with
  | nil =>
    intro i m h
    exact h
  | cons a rest ih =>
    intro i m h
    obtain ⟨st, mv⟩ := a
    exact ih (i + 1) _ (memEntriesNonempty_updateRecord m st mv s i h)

/-- The guarded initialization step keeps every state table nonempty: the
entry it may add is exactly the one the subsequent lookup returns, and the
simulation only proceeds when that one is nonempty. -/
theorem memEntriesNonempty_initState (m : Memory) (g : Game)
    (records : StateRecords) (hNE : memEntriesNonempty m)
    (hlk : memLookup (initState m g) (g.state) = some records)
    (hrec : records ≠ []) : memEntriesNonempty (initState m g) := by
  unfold initState at hlk ⊢
  split_ifs at hlk ⊢ with hs
  · exact hNE
  · intro p hp
    rcases List.mem_append.mp hp with hin | hin
    · exact hNE p hin
    · have hp2 : p = (g.state,
          (g.valid_moves).map (fun mv => (mv, ((0 : Rat), 0)))) := by
        simpa using hin
      subst hp2
      have hnone : memLookup m (g.state) = none := by
        cases hc : memLookup m (g.state) with
        | none => rfl
        | some v => rw [hc] at hs; simp at hs
      have hself := memLookup_append_self m (g.state)
        ((g.valid_moves).map (fun mv => (mv, ((0 : Rat), 0)))) hnone
      rw [hself] at hlk
      simp only
      rw [Option.some.inj hlk]
      exact hrec

/-- A whole simulation keeps every state table nonempty. -/
theorem memEntriesNonempty_simulate (oracle : Nat → Nat) (fuel : Nat)
    (m : Memory) (g : Game) (m' : Memory) (h : memEntriesNonempty m)
    (hs : simulate oracle fuel m g = some m') : memEntriesNonempty m' := by
  unfold simulate at hs
  rw [Option.map_eq_some'] at hs
  obtain ⟨res, hres, rfl⟩ := hs
  have h1 := simLoop_preserves oracle g.current_turn memEntriesNonempty
    memEntriesNonempty_initState fuel m g [] [] res h hres
  exact memEntriesNonempty_creditGo _ _ _ _
    (memEntriesNonempty_creditGo _ _ _ _ h1)

/-- C6: `nextMove(state)` fails with the LookupError exactly on states the
memory does not contain: a missing state raises it, while every state the
agent's memory contains (the memory starts empty and is grown only by
simulations, which keep every state table nonempty) yields a move. -/
theorem next_move_lookup_semantics :
    (∀ m s, memLookup m s = none →
      next_move m s = Except.error AgentErr.lookupError) ∧
    (∀ m s recs, memEntriesNonempty m → memLookup m s = some recs →
      ∃ mv, next_move m s = Except.ok mv) ∧
    memEntriesNonempty ([] : Memory) ∧
    (∀ oracle fuel m g m', memEntriesNonempty m →
      simulate oracle fuel m g = some m' → memEntriesNonempty m') := by
  refine ⟨?_, ?_, fun p hp => absurd hp (List.not_mem_nil p),
    memEntriesNonempty_simulate⟩
  · intro m s h
    unfold next_move
    rw [h]
  · intro m s recs hNE h
    have hne := memLookup_entry_nonempty m s recs hNE h
    unfold next_move
    rw [h]
    cases recs with
    | nil => exact absurd rfl hne
    | cons r rs => exact ⟨_, rfl⟩

/-- Witness for C6: the empty memory raises LookupError for any state, and
a one-state memory returns a move for its state. -/
theorem next_move_lookup_semantics_witness :
    next_move ([] : Memory) "a" = Except.error AgentErr.lookupError ∧
    (∃ mv, next_move [("a", [("1", ((0 : Rat), 0))])] "a" = Except.ok mv) :=
  ⟨next_move_lookup_semantics.1 [] "a" rfl,
   next_move_lookup_semantics.2.1 [("a", [("1", ((0 : Rat), 0))])] "a"
     [("1", ((0 : Rat), 0))]
     (fun p hp => by
       rw [List.mem_singleton.mp hp]
       simp)
     rfl⟩
/-- The fold of the `next_move` reducer never decreases the accumulator's
win rate. -/
theorem foldl_nmStep_acc_le :
    ∀ (rs : List (String × Record)) (r : String × Record),
      winrate r.2 ≤ winrate (rs.foldl nmStep r).2 := by
  intro rs
  induction rs with
  | nil =>
    intro r
    exact le_refl _
  | cons b rs ih =>
    intro r
    rw [List.foldl_cons]
    have h1 : winrate r.2 ≤ winrate (nmStep r b).2 := by
      unfold nmStep
      split_ifs with h
      · exact le_refl _
      · exact le_of_not_lt h
    exact le_trans h1 (ih (nmStep r b))

/-- The fold of the `next_move` reducer returns the LAST element attaining
the maximal win rate: its win rate is at least every earlier element's and
strictly above every later element's. -/
theorem foldl_nmStep_last_max :
    ∀ (rs : List (String × Record)) (r : String × Record),
      ∃ l₁ l₂, r :: rs = l₁ ++ (rs.foldl nmStep r) :: l₂ ∧
        (∀ p ∈ l₁, winrate p.2 ≤ winrate (rs.foldl nmStep r).2) ∧
        (∀ p ∈ l₂, winrate p.2 < winrate (rs.foldl nmStep r).2) := by
  intro rs
  induction rs with
  | nil =>
    intro r
    exact ⟨[], [], rfl, fun p hp => absurd hp (List.not_mem_nil p),
      fun p hp => absurd hp (List.not_mem_nil p)⟩
  | cons b rs ih =>
    intro r
    rw [List.foldl_cons]
    obtain ⟨l₁, l₂, hsplit, h1, h2⟩ := ih (nmStep r b)
    by_cases hgt : winrate r.2 > winrate b.2
    · have hstep : nmStep r b = r := by
        unfold nmStep
        exact if_pos hgt
      rw [hstep] at hsplit h1 h2 ⊢
      cases l₁ with
      | nil =>
        rw [List.nil_append] at hsplit
        obtain ⟨hr, hrs⟩ := List.cons.inj hsplit
        refine ⟨[], b :: rs, by rw [List.nil_append, ← hr],
          fun p hp => absurd hp (List.not_mem_nil p), ?_⟩
        intro p hp
        rcases List.mem_cons.mp hp with hpb | hmem
        · rw [hpb, ← hr]
          exact hgt
        · exact h2 p (hrs ▸ hmem)
      | cons a l₁ =>
        rw [List.cons_append] at hsplit
        obtain ⟨hra, hrest⟩ := List.cons.inj hsplit
        refine ⟨r :: b :: l₁, l₂, ?_, ?_, h2⟩
        · rw [List.cons_append, List.cons_append]
          conv_lhs => rw [hrest]
        · intro p hp
          have hamax : winrate a.2 ≤ winrate ((rs.foldl nmStep r)).2 :=
            h1 a (List.mem_cons_self a l₁)
          have hw : winrate r.2 = winrate a.2 := by rw [hra]
          rcases List.mem_cons.mp hp with hpr | hp'
          · rw [hpr, hw]
            exact hamax
          rcases List.mem_cons.mp hp' with hpb | hp''
          · rw [hpb]
            exact le_trans (le_of_lt hgt) (le_trans (le_of_eq hw) hamax)
          · exact h1 p (List.mem_cons_of_mem a hp'')
    · have hstep : nmStep r b = b := by
        unfold nmStep
        exact if_neg hgt
      rw [hstep] at hsplit h1 h2 ⊢
      refine ⟨r :: l₁, l₂, ?_, ?_, h2⟩
      · rw [List.cons_append, ← hsplit]
      · intro p hp
        rcases List.mem_cons.mp hp with hpr | hp'
        · rw [hpr]
          exact le_trans (le_of_not_lt hgt) (foldl_nmStep_acc_le rs b)
        · exact h1 p hp'

/-- Counterexample to C2: in `tieMemory` moves `"1"` and `"2"` share the
maximal win rate, yet `next_move` returns `"2"` — the LAST tied key in
iteration order, not the first-encountered one. -/
theorem next_move_tie_counterexample :
    next_move tieMemory "s" = Except.ok "2" ∧ ("2" : String) ≠ "1" := by
  constructor
  · have h1 : next_move tieMemory "s" =
        Except.ok ((nmStep ("1", ((1 : Rat), 2)) ("2", ((1 : Rat), 2))).1) :=
      rfl
    have h2 : nmStep ("1", ((1 : Rat), 2)) ("2", ((1 : Rat), 2)) =
        ("2", ((1 : Rat), 2)) := by
      unfold nmStep
      exact if_neg (lt_irrefl _)
    rw [h1, h2]
  · decide

/-- C2 amended: for a state present in memory with at least one recorded
move, `nextMove` returns a move of maximal win rate; when several moves
tie at the maximum it returns the LAST-encountered one in iteration order
(its win rate is ≥ every earlier move's and > every later move's). -/
theorem next_move_max_last_tie (m : Memory) (s : String)
    (recs : StateRecords) (hlk : memLookup m s = some recs)
    (hne : recs ≠ []) :
    ∃ l₁ k r l₂, recs = l₁ ++ (k, r) :: l₂ ∧
      next_move m s = Except.ok k ∧
      (∀ p ∈ l₁, winrate p.2 ≤ winrate r) ∧
      (∀ p ∈ l₂, winrate p.2 < winrate r) := by
  cases recs with
  | nil => exact absurd rfl hne
  | cons r0 rs =>
    obtain ⟨l₁, l₂, hsplit, h1, h2⟩ := foldl_nmStep_last_max rs r0
    refine ⟨l₁, (rs.foldl nmStep r0).1, (rs.foldl nmStep r0).2, l₂,
      hsplit, ?_, h1, h2⟩
    unfold next_move
    rw [hlk]

/-- Witness for C2 amended: applied to `tieMemory`, whose state table is
concrete and nonempty. -/
theorem next_move_max_last_tie_witness :
    ∃ l₁ k r l₂,
      [("1", ((1 : Rat), 2)), ("2", ((1 : Rat), 2))] = l₁ ++ (k, r) :: l₂ ∧
      next_move tieMemory "s" = Except.ok k ∧
      (∀ p ∈ l₁, winrate p.2 ≤ winrate r) ∧
      (∀ p ∈ l₂, winrate p.2 < winrate r) :=
  next_move_max_last_tie tieMemory "s"
    [("1", ((1 : Rat), 2)), ("2", ((1 : Rat), 2))] rfl (by simp)
end TTT
